import Mathlib

set_option maxHeartbeats 1000000

/-!
Verification of the simple-calc repository (src/main.rs): a lexer over the
remaining input string and a recursive-descent expression evaluator with a
two-slot lookahead buffer (`current`, `look_ahead`).  The embedding models
strings as `List Char`, the `f64` values as exact extended rationals with
IEEE special values, Rust `Result` as `Res.ok` / `Res.err` (carrying the
final parser state), Rust panics as `Res.panicked` with a tag naming the
panic site, and the mutual recursion of the four grammar levels through a
fuel parameter (`Res.fuelOut` is the fuel-exhaustion artefact).
-/

namespace SimpleCalc

/-- Numeric values, modelling the f64 values of the program: finite values
are kept exactly as rationals, and the IEEE special values are explicit.
This model is bit-faithful to binary64 exactly where every value involved
is exactly representable — in particular on integers of magnitude at most
`2 ^ 53` (see `exactVal`), where every IEEE operation returns its exact
result; outside that regime `f64` rounds while these operations stay
exact, so universally quantified value statements are deliberately
restricted to the faithful fragment.  `+inf`/`-inf`/`nan` follow the IEEE
rules. -/
inductive FVal where
  | finite : ℚ → FVal
  | posInf : FVal
  | negInf : FVal
  | nan : FVal
  deriving DecidableEq

/-- IEEE negation. -/
def FVal.neg : FVal → FVal
  | .finite q => .finite (-q)
  | .posInf => .negInf
  | .negInf => .posInf
  | .nan => .nan

/-- IEEE addition (exact on finite values). -/
def FVal.add : FVal → FVal → FVal
  | .nan, _ => .nan
  | _, .nan => .nan
  | .finite a, .finite b => .finite (a + b)
  | .posInf, .negInf => .nan
  | .negInf, .posInf => .nan
  | .posInf, _ => .posInf
  | _, .posInf => .posInf
  | .negInf, _ => .negInf
  | _, .negInf => .negInf

/-- IEEE subtraction (exact on finite values). -/
def FVal.sub : FVal → FVal → FVal
  | .nan, _ => .nan
  | _, .nan => .nan
  | .finite a, .finite b => .finite (a - b)
  | .posInf, .posInf => .nan
  | .negInf, .negInf => .nan
  | .posInf, _ => .posInf
  | _, .posInf => .negInf
  | .negInf, _ => .negInf
  | _, .negInf => .posInf

/-- Case split on the sign of a finite operand, for the IEEE rules. -/
def FVal.signSplit (q : ℚ) (pos neg zero : FVal) : FVal :=
  if 0 < q then pos else if q < 0 then neg else zero

/-- IEEE multiplication (exact on finite values; `0 * inf = nan`). -/
def FVal.mul : FVal → FVal → FVal
  | .nan, _ => .nan
  | _, .nan => .nan
  | .finite a, .finite b => .finite (a * b)
  | .finite a, .posInf => FVal.signSplit a .posInf .negInf .nan
  | .finite a, .negInf => FVal.signSplit a .negInf .posInf .nan
  | .posInf, .finite b => FVal.signSplit b .posInf .negInf .nan
  | .negInf, .finite b => FVal.signSplit b .negInf .posInf .nan
  | .posInf, .posInf => .posInf
  | .posInf, .negInf => .negInf
  | .negInf, .posInf => .negInf
  | .negInf, .negInf => .posInf

/-- IEEE division: exact on finite values with nonzero divisor; a nonzero
finite value divided by zero gives a signed infinity, `0 / 0 = nan`. -/
def FVal.div : FVal → FVal → FVal
  | .nan, _ => .nan
  | _, .nan => .nan
  | .finite a, .finite b =>
      if b = 0 then (if 0 < a then .posInf else if a < 0 then .negInf else .nan)
      else .finite (a / b)
  | .finite _, .posInf => .finite 0
  | .finite _, .negInf => .finite 0
  | .posInf, .finite b => if b < 0 then .negInf else .posInf
  | .negInf, .finite b => if b < 0 then .posInf else .negInf
  | .posInf, .posInf => .nan
  | .posInf, .negInf => .nan
  | .negInf, .posInf => .nan
  | .negInf, .negInf => .nan

/-- Model of enum Token from src/main.rs. -/
inductive Token where
  | Number : FVal → Token
  | Operator : Char → Token
  | Empty : Token
  | End : Token
  deriving DecidableEq

/-- Model of Token::get_number. -/
def Token.get_number : Token → Option FVal
  | .Number number => some number
  | _ => none

/-- Exact integer value of a (nonempty, all-digit) run of ASCII digits.
This agrees with what the program obtains from `str::parse` exactly for
integers of magnitude at most `2 ^ 53`; beyond that `parse` rounds to the
nearest `f64` (and saturates to infinity for huge runs), which is why the
universally quantified value theorems carry an exactness hypothesis. -/
def natOfDigits (ds : List Char) : Nat :=
  ds.foldl (fun a c => 10 * a + (c.toNat - Char.toNat '0')) 0

/-- The character class of the operator arm of the lexer match. -/
def isOpChar (c : Char) : Bool :=
  c = '+' || c = '-' || c = '*' || c = '/' || c = '%' || c = '(' || c = ')'

/-- Model of Scan::next for Lexer, on the remaining input `raw`.  Returns the
token and the new remaining input; `none` models a Rust panic (the
`.unwrap()` when every remaining character is a digit, or the `panic!` on
an unrecognized character).  Note the `End` arm leaves `raw` unchanged,
exactly as the source does not reassign `self.raw` there.  Whitespace is
modelled with Lean Char.isWhitespace (space, tab, CR, LF), a subset of the
Unicode White_Space class Rust trim_start uses; the two agree on all ASCII
inputs. -/
def Lexer.next (raw : List Char) : Option (Token × List Char) :=
  let s := raw.dropWhile Char.isWhitespace
  match s with
  | [] => some (Token.End, raw)
  | first :: rest =>
    if first.isDigit then
      match s.dropWhile Char.isDigit with
      | [] => none
      | c :: cs =>
          some (Token.Number (FVal.finite (natOfDigits (s.takeWhile Char.isDigit))), c :: cs)
    else if isOpChar first then
      some (Token.Operator first, rest)
    else
      none

/-- The mutable parser state: the remaining input of the lexer plus the
two-slot lookahead buffer. -/
structure ParserState where
  raw : List Char
  current : Token
  look_ahead : Token
  deriving DecidableEq

/-- Outcome of running parser code: `ok`/`err` mirror
the Rust result type together with the final parser state (errors
propagate through `&mut self`, so the state at the error point is
meaningful); `panicked` models a Rust panic with a tag naming the site;
`fuelOut` is the fuel-exhaustion artefact of the embedding. -/
inductive Res where
  | ok : FVal → ParserState → Res
  | err : String → ParserState → Res
  | panicked : String → Res
  | fuelOut : Res
  deriving DecidableEq

/-- The four grammar levels of the recursive descent. -/
inductive Lv where
  | prim | un | mul | add
  deriving DecidableEq

/-- Model of Parser::shift: return the old `current`, promote `look_ahead`, pull a
fresh token from the lexer.  `none` models a lexer panic. -/
def Parser.shift (p : ParserState) : Option (Token × ParserState) :=
  match Lexer.next p.raw with
  | none => none
  | some (t, raw2) =>
      some (p.current, { raw := raw2, current := p.look_ahead, look_ahead := t })

/-- Model of Parser::eval_primary_expr; `recur` is the handle for the mutually
recursive levels. -/
def eval_primary_expr (recur : Lv → ParserState → Res) (p : ParserState) : Res :=
  match p.current with
  | Token.Operator c =>
    if c = '(' then
      match Parser.shift p with
      | none => Res.panicked "lexer"
      | some (_, p1) =>
        match recur Lv.add p1 with
        | Res.ok result p2 =>
          if p2.look_ahead = Token.Operator ')' then
            match Parser.shift p2 with
            | none => Res.panicked "lexer"
            | some (t, p3) => Res.ok result { p3 with current := t }
          else
            Res.err "unmatched bracket" p2
        | r => r
    else
      Res.err "invalid operator" p
  | Token.Number number => Res.ok number p
  | _ => Res.err "invalid operator" p

/-- Model of Parser::eval_unary_expr. -/
def eval_unary_expr (recur : Lv → ParserState → Res) (p : ParserState) : Res :=
  match p.current with
  | Token.Operator c =>
    if c = '+' || c = '-' then
      match Parser.shift p with
      | none => Res.panicked "lexer"
      | some (operator, p1) =>
        match recur Lv.prim p1 with
        | Res.ok oprand p2 =>
          if operator = Token.Operator '+' then
            Res.ok oprand { p2 with current := Token.Number oprand }
          else if operator = Token.Operator '-' then
            Res.ok (FVal.neg oprand) { p2 with current := Token.Number (FVal.neg oprand) }
          else
            Res.panicked "unreachable"
        | r => r
    else
      recur Lv.prim p
  | _ => recur Lv.prim p

/-- The exit arm of `eval_mul_expr`: when `look_ahead` is no longer `*`/`/`,
return the `Number` in `current`, else fail with `error occurred`. -/
def mul_exit (p1 : ParserState) : Res :=
  match p1.current with
  | Token.Number result => Res.ok result p1
  | _ => Res.err "error occurred" p1

/-- The part of `Parser::eval_mul_expr` after the initial
`eval_unary_expr` call: the match on `look_ahead` (factored out so the
lemmas can talk about the loop directly). -/
def mul_loop (recur : Lv → ParserState → Res) (p1 : ParserState) : Res :=
  match p1.look_ahead with
  | Token.Operator c =>
    if c = '*' || c = '/' then
      match Parser.shift p1 with
      | none => Res.panicked "lexer"
      | some (t1, p2) =>
        match t1.get_number with
        | none => Res.panicked "unwrap mul"
        | some op1 =>
          match Parser.shift p2 with
          | none => Res.panicked "lexer"
          | some (operator, p3) =>
            match recur Lv.un p3 with
            | Res.ok op2 p4 =>
              if operator = Token.Operator '*' then
                recur Lv.mul { p4 with current := Token.Number (FVal.mul op1 op2) }
              else if operator = Token.Operator '/' then
                recur Lv.mul { p4 with current := Token.Number (FVal.div op1 op2) }
              else
                Res.panicked "unreachable"
            | r => r
    else
      mul_exit p1
  | _ => mul_exit p1

/-- Model of Parser::eval_mul_expr. -/
def eval_mul_expr (recur : Lv → ParserState → Res) (p : ParserState) : Res :=
  match recur Lv.un p with
  | Res.ok _ p1 => mul_loop recur p1
  | r => r

/-- The exit arm of `eval_add_expr`. -/
def add_exit (p1 : ParserState) : Res :=
  match p1.current with
  | Token.Number result => Res.ok result p1
  | _ => Res.err "error occurred" p1

/-- The part of `Parser::eval_add_expr` after the initial `eval_mul_expr`
call: the match on `look_ahead`. -/
def add_loop (recur : Lv → ParserState → Res) (p1 : ParserState) : Res :=
  match p1.look_ahead with
  | Token.Operator c =>
    if c = '+' || c = '-' then
      match Parser.shift p1 with
      | none => Res.panicked "lexer"
      | some (t1, p2) =>
        match t1.get_number with
        | none => Res.panicked "unwrap add"
        | some op1 =>
          match Parser.shift p2 with
          | none => Res.panicked "lexer"
          | some (operator, p3) =>
            match recur Lv.mul p3 with
            | Res.ok op2 p4 =>
              if operator = Token.Operator '+' then
                recur Lv.add { p4 with current := Token.Number (FVal.add op1 op2) }
              else if operator = Token.Operator '-' then
                recur Lv.add { p4 with current := Token.Number (FVal.sub op1 op2) }
              else
                Res.panicked "unreachable"
            | r => r
    else
      add_exit p1
  | _ => add_exit p1

/-- Model of Parser::eval_add_expr. -/
def eval_add_expr (recur : Lv → ParserState → Res) (p : ParserState) : Res :=
  match recur Lv.mul p with
  | Res.ok _ p1 => add_loop recur p1
  | r => r

/-- The four mutually recursive grammar levels, tied together through a
fuel parameter that makes the recursion structural. -/
def run : Nat → Lv → ParserState → Res
  | 0, _, _ => Res.fuelOut
  | fuel + 1, Lv.prim, p => eval_primary_expr (run fuel) p
  | fuel + 1, Lv.un, p => eval_unary_expr (run fuel) p
  | fuel + 1, Lv.mul, p => eval_mul_expr (run fuel) p
  | fuel + 1, Lv.add, p => eval_add_expr (run fuel) p

/-- Model of Parser::eval on the string the driver hands to Lexer::new: prime
the lookahead buffer with two shifts, evaluate the additive level, then
require `look_ahead == End` (note the source checks `look_ahead` even when
`eval_add_expr` returned an error, since it binds the `Result` without
`?`). -/
def Parser.eval (fuel : Nat) (raw : List Char) : Res :=
  match Parser.shift { raw := raw, current := Token.Empty, look_ahead := Token.Empty } with
  | none => Res.panicked "lexer"
  | some (_, p1) =>
    match Parser.shift p1 with
    | none => Res.panicked "lexer"
    | some (_, p2) =>
      match run fuel Lv.add p2 with
      | Res.ok v p => if p.look_ahead = Token.End then Res.ok v p else Res.err "invalid expression" p
      | Res.err m p => if p.look_ahead = Token.End then Res.err m p else Res.err "invalid expression" p
      | r => r

/-- The evaluation the program performs on one typed line `s`: `read_line`
keeps the trailing newline, and `main` passes the whole line (newline
included) to `Lexer::new`. -/
def evalLine (fuel : Nat) (s : List Char) : Res :=
  Parser.eval fuel (s ++ ['\n'])

/-- The error message of a `Res`, when it is an `err`. -/
def resErrMsg : Res → Option String
  | .err m _ => some m
  | _ => none

/-- C7: division by zero is not an error: `"1/0"` evaluates to `Ok` of the
infinity value, never to any `Err` (no special-case check exists in
`eval_mul_expr`). -/
theorem c7_division_by_zero_gives_infinity :
    evalLine 32 ('1' :: '/' :: '0' :: []) =
      Res.ok FVal.posInf ⟨['\n'], Token.Number FVal.posInf, Token.End⟩ ∧
    ∀ m p, evalLine 32 ('1' :: '/' :: '0' :: []) ≠ Res.err m p := by
  refine ⟨by decide, ?_⟩
  intro m p h
  rw [show evalLine 32 ('1' :: '/' :: '0' :: []) =
      Res.ok FVal.posInf ⟨['\n'], Token.Number FVal.posInf, Token.End⟩ from by decide] at h
  exact Res.noConfusion h

/-- C7 witness: the no-error part of the claim at a concrete error value. -/
theorem c7_witness :
    evalLine 32 ('1' :: '/' :: '0' :: []) ≠
      Res.err "division by zero" ⟨['\n'], Token.Number FVal.posInf, Token.End⟩ :=
  c7_division_by_zero_gives_infinity.2 "division by zero"
    ⟨['\n'], Token.Number FVal.posInf, Token.End⟩

/-- C2 counterexample: evaluating `"2*-3"` does not produce the parse error
`invalid operator` (it is not an `Err` at all). -/
theorem c2_counterexample :
    resErrMsg (evalLine 32 ('2' :: '*' :: '-' :: '3' :: [])) = none := by decide

/-- C2 (amended): `"-2*3"` evaluates to `Ok(-6)`, and `"2*-3"` also
evaluates to `Ok(-6)`: the multiplicative level parses its right operand at
the unary level, which does accept a leading sign. -/
theorem c2_unary_sign_both_sides :
    evalLine 32 ('-' :: '2' :: '*' :: '3' :: []) =
      Res.ok (FVal.finite (-6)) ⟨['\n'], Token.Number (FVal.finite (-6)), Token.End⟩ ∧
    evalLine 32 ('2' :: '*' :: '-' :: '3' :: []) =
      Res.ok (FVal.finite (-6)) ⟨['\n'], Token.Number (FVal.finite (-6)), Token.End⟩ := by
  exact ⟨by with_unfolding_all decide, by with_unfolding_all decide⟩

/-- C3: on an all-digit remainder the lexer does not return
`Number(123)` — it panics (the `.unwrap()` on `find` returns `None`),
while the same digits followed by a newline lex fine. -/
theorem c3_all_digit_remainder_panics :
    Lexer.next ('1' :: '2' :: '3' :: []) = none ∧
    Lexer.next ('1' :: '2' :: '3' :: '\n' :: []) =
      some (Token.Number (FVal.finite 123), ['\n']) := by
  exact ⟨by decide, by decide⟩

/-- C9: the `End` token is terminal: once `next()` returns `End` the
remaining input is unchanged, and every later call returns `End` again with
the same remaining input. -/
theorem c9_end_is_terminal :
    ∀ raw raw2, Lexer.next raw = some (Token.End, raw2) →
      raw2 = raw ∧ Lexer.next raw2 = some (Token.End, raw2) := by
  intro raw raw2 h
  rcases hs : raw.dropWhile Char.isWhitespace with _ | ⟨first, rest⟩
  · have h2 : raw2 = raw := by
      simp [Lexer.next, hs] at h
      exact h.symm
    subst h2
    exact ⟨rfl, by simp [Lexer.next, hs]⟩
  · exfalso
    simp [Lexer.next, hs] at h
    rcases hd : (first :: rest).dropWhile Char.isDigit with _ | ⟨c, cs⟩
    all_goals simp [hd] at h
    all_goals split at h
    all_goals simp_all

/-- C9 witness: after returning `End` on the empty input, `next()` keeps
returning `End` with the input unchanged. -/
theorem c9_witness :
    Lexer.next ([] : List Char) = some (Token.End, []) ∧
    Lexer.next ([] : List Char) = some (Token.End, []) := by
  exact ⟨by decide, (c9_end_is_terminal [] [] (by decide)).2⟩

/-- C10: on an empty or whitespace-only input string, priming leaves
`current = End`, the primary level rejects it, and `Parser::eval` returns
`Err("invalid operator")`. -/
theorem c10_blank_line_invalid_operator :
    ∀ raw fuel, raw.dropWhile Char.isWhitespace = [] → 4 ≤ fuel →
      Parser.eval fuel raw = Res.err "invalid operator" ⟨raw, Token.End, Token.End⟩ := by
  intro raw fuel h hf
  obtain ⟨f, rfl⟩ : ∃ f, fuel = f + 4 := ⟨fuel - 4, by omega⟩
  have h0 : Lexer.next raw = some (Token.End, raw) := by simp [Lexer.next, h]
  simp [Parser.eval, Parser.shift, h0, run, eval_add_expr, eval_mul_expr,
    eval_unary_expr, eval_primary_expr]

/-- C10 witness: the empty input yields `Err("invalid operator")`. -/
theorem c10_witness :
    (([] : List Char).dropWhile Char.isWhitespace = []) ∧
    Parser.eval 4 [] = Res.err "invalid operator" ⟨[], Token.End, Token.End⟩ :=
  ⟨by decide, c10_blank_line_invalid_operator [] 4 (by decide) (by decide)⟩

/-- What a successful `shift` tells us: it returns the old `current`, the
new `current` is the old `look_ahead`, and the new `look_ahead` together
with the new remaining input come from the lexer. -/
theorem shift_spec (p : ParserState) (t : Token) (q : ParserState)
    (h : Parser.shift p = some (t, q)) :
    t = p.current ∧ q.current = p.look_ahead ∧
    Lexer.next p.raw = some (q.look_ahead, q.raw) := by
  unfold Parser.shift at h
  cases hl : Lexer.next p.raw with
  | none => rw [hl] at h; exact absurd h (by simp)
  | some tr =>
    obtain ⟨tk, raw2⟩ := tr
    rw [hl] at h
    simp only [Option.some.injEq, Prod.mk.injEq] at h
    obtain ⟨h1, h2⟩ := h
    subst h1
    subst h2
    exact ⟨rfl, rfl, rfl⟩

/-- C6: the general shape of the `unmatched bracket` failure in
`eval_primary_expr`, plus the concrete instance `"(1+2"`. -/
theorem c6_unmatched_bracket :
    (∀ fuel p p1 t v p2, p.current = Token.Operator '(' →
        Parser.shift p = some (t, p1) →
        run fuel Lv.add p1 = Res.ok v p2 →
        p2.look_ahead ≠ Token.Operator ')' →
        run (fuel + 1) Lv.prim p = Res.err "unmatched bracket" p2) ∧
    evalLine 32 ('(' :: '1' :: '+' :: '2' :: []) =
      Res.err "unmatched bracket" ⟨['\n'], Token.Number (FVal.finite 3), Token.End⟩ := by
  constructor
  · intro fuel p p1 t v p2 hc hs hr hl
    simp [run, eval_primary_expr, hc, hs, hr, hl]
  · with_unfolding_all decide

/-- C6 witness: the general part of `c6_unmatched_bracket` applied to the
parser state reached inside `"(1+2\n"` just before the primary level
parses the parenthesis. -/
theorem c6_witness :
    run 31 Lv.prim ⟨['+', '2', '\n'], Token.Operator '(', Token.Number (FVal.finite 1)⟩ =
      Res.err "unmatched bracket" ⟨['\n'], Token.Number (FVal.finite 3), Token.End⟩ :=
  c6_unmatched_bracket.1 30
    ⟨['+', '2', '\n'], Token.Operator '(', Token.Number (FVal.finite 1)⟩
    ⟨['2', '\n'], Token.Number (FVal.finite 1), Token.Operator '+'⟩
    (Token.Operator '(') (FVal.finite 3)
    ⟨['\n'], Token.Number (FVal.finite 3), Token.End⟩
    rfl (by decide) (by with_unfolding_all decide) (by decide)

/-- The combination of properties that the claim C8 needs of every result
the grammar levels can produce: a successful level leaves its value in
`current` as a `Number`, the defensive `error occurred` arms are never
taken, and the `get_number().unwrap()` calls never panic. -/
def GoodRes (r : Res) : Prop :=
  (∀ v p2, r = Res.ok v p2 → p2.current = Token.Number v) ∧
  (∀ p2, r ≠ Res.err "error occurred" p2) ∧
  r ≠ Res.panicked "unwrap mul" ∧ r ≠ Res.panicked "unwrap add"

theorem goodRes_ok {v p} (h : p.current = Token.Number v) : GoodRes (Res.ok v p) :=
  ⟨fun w q hw => by
      injection hw with h1 h2
      subst h1; subst h2; exact h,
    by intro q h2; exact Res.noConfusion h2, by simp, by simp⟩

theorem goodRes_err {m : String} {p} (h : m ≠ "error occurred") : GoodRes (Res.err m p) :=
  ⟨fun w q hw => Res.noConfusion hw,
    fun q h2 => by injection h2 with h1; exact h h1, by simp, by simp⟩

theorem goodRes_panicked {s : String} (h1 : s ≠ "unwrap mul") (h2 : s ≠ "unwrap add") :
    GoodRes (Res.panicked s) :=
  ⟨fun w q hw => Res.noConfusion hw, fun q hq => Res.noConfusion hq,
    by simp [h1], by simp [h2]⟩

theorem goodRes_fuelOut : GoodRes Res.fuelOut :=
  ⟨fun w q hw => Res.noConfusion hw, fun q hq => Res.noConfusion hq, by simp, by simp⟩

/-- The predicate `GoodRes` transfers along an equation. -/
theorem goodRes_of_eq {r s : Res} (h : r = s) (hg : GoodRes r) : GoodRes s := h ▸ hg

/-- The C8 invariant, for every grammar level and every amount of fuel. -/
theorem run_inv : ∀ fuel lv p, GoodRes (run fuel lv p) := by
  intro fuel
  induction fuel with
  | zero => intro lv p; exact goodRes_fuelOut
  | succ n ih =>
    have hml : ∀ p1 w, p1.current = Token.Number w → GoodRes (mul_loop (run n) p1) := by
      intro p1 w hw
      unfold mul_loop
      split
      · split
        · split
          · exact goodRes_panicked (by simp) (by simp)
          · rename_i t1 p2 hs
            have ht1 : t1 = p1.current := (shift_spec p1 t1 p2 hs).1
            rw [ht1, hw]
            simp only [Token.get_number]
            split
            · exact goodRes_panicked (by simp) (by simp)
            · rename_i operator p3 hs2
              split
              · split
                · exact ih Lv.mul _
                · split
                  · exact ih Lv.mul _
                  · exact goodRes_panicked (by simp) (by simp)
              · exact ih Lv.un p3
        · simp only [mul_exit, hw]
          exact goodRes_ok hw
      · simp only [mul_exit, hw]
        exact goodRes_ok hw
    have hal : ∀ p1 w, p1.current = Token.Number w → GoodRes (add_loop (run n) p1) := by
      intro p1 w hw
      unfold add_loop
      split
      · split
        · split
          · exact goodRes_panicked (by simp) (by simp)
          · rename_i t1 p2 hs
            have ht1 : t1 = p1.current := (shift_spec p1 t1 p2 hs).1
            rw [ht1, hw]
            simp only [Token.get_number]
            split
            · exact goodRes_panicked (by simp) (by simp)
            · rename_i operator p3 hs2
              split
              · split
                · exact ih Lv.add _
                · split
                  · exact ih Lv.add _
                  · exact goodRes_panicked (by simp) (by simp)
              · exact ih Lv.mul p3
        · simp only [add_exit, hw]
          exact goodRes_ok hw
      · simp only [add_exit, hw]
        exact goodRes_ok hw
    intro lv p
    cases lv with
    | prim =>
      show GoodRes (eval_primary_expr (run n) p)
      unfold eval_primary_expr
      split
      · split
        · split
          · exact goodRes_panicked (by simp) (by simp)
          · rename_i hc t p1 hs
            split
            · split
              · rename_i result p2 hr h2
                split
                · exact goodRes_panicked (by simp) (by simp)
                · rename_i t2 p3 hs2
                  have ht2 : t2 = p2.current := (shift_spec p2 t2 p3 hs2).1
                  have hcur : p2.current = Token.Number result := (ih Lv.add p1).1 result p2 hr
                  exact goodRes_ok (by simp [ht2, hcur])
              · exact goodRes_err (by simp)
            · exact ih Lv.add p1
        · exact goodRes_err (by simp)
      · rename_i v hc
        exact goodRes_ok hc
      · exact goodRes_err (by simp)
    | un =>
      show GoodRes (eval_unary_expr (run n) p)
      unfold eval_unary_expr
      split
      · split
        · split
          · exact goodRes_panicked (by simp) (by simp)
          · rename_i operator p1 hs
            split
            · split
              · exact goodRes_ok rfl
              · split
                · exact goodRes_ok rfl
                · exact goodRes_panicked (by simp) (by simp)
            · exact ih Lv.prim p1
        · exact ih Lv.prim p
      · exact ih Lv.prim p
    | mul =>
      show GoodRes (eval_mul_expr (run n) p)
      unfold eval_mul_expr
      split
      · rename_i v p1 hr
        exact hml p1 v ((ih Lv.un p).1 v p1 hr)
      · exact ih Lv.un p
    | add =>
      show GoodRes (eval_add_expr (run n) p)
      unfold eval_add_expr
      split
      · rename_i v p1 hr
        exact hal p1 v ((ih Lv.mul p).1 v p1 hr)
      · exact ih Lv.mul p

/-- C8: for every input string and any fuel, `Parser::eval` never returns
`Err("error occurred")` and the `get_number().unwrap()` calls in
`eval_mul_expr` and `eval_add_expr` never panic. -/
theorem c8_error_occurred_unreachable :
    ∀ fuel raw,
      (∀ p, Parser.eval fuel raw ≠ Res.err "error occurred" p) ∧
      Parser.eval fuel raw ≠ Res.panicked "unwrap mul" ∧
      Parser.eval fuel raw ≠ Res.panicked "unwrap add" := by
  intro fuel raw
  unfold Parser.eval
  split
  · exact ⟨fun p h => by simp at h, by simp, by simp⟩
  · rename_i t1 p1 hs1
    split
    · exact ⟨fun p h => by simp at h, by simp, by simp⟩
    · rename_i t2 p2 hs2
      have hg := run_inv fuel Lv.add p2
      split
      · rename_i v p hr
        split
        · exact ⟨fun q h => by simp at h, by simp, by simp⟩
        · exact ⟨fun q h => by simp at h, by simp, by simp⟩
      · rename_i m p hr
        have hm : m ≠ "error occurred" := by
          intro hcon
          exact (hg.2.1 p) (by rw [hr, hcon])
        split
        · exact ⟨fun q h => by
            injection h with h1 _
            exact hm h1, by simp, by simp⟩
        · exact ⟨fun q h => by
            injection h with h1 _
            exact absurd h1.symm (by simp), by simp, by simp⟩
      · exact ⟨hg.2.1, hg.2.2.1, hg.2.2.2⟩

/-- C8 witness: the invariant instantiated at a concrete input and state. -/
theorem c8_witness :
    Parser.eval 32 ('1' :: '+' :: '1' :: '\n' :: []) ≠
      Res.err "error occurred" ⟨['\n'], Token.Number (FVal.finite 2), Token.End⟩ :=
  (c8_error_occurred_unreachable 32 ('1' :: '+' :: '1' :: '\n' :: [])).1
    ⟨['\n'], Token.Number (FVal.finite 2), Token.End⟩

/-! ### The expression grammar of the spec

The grammar of the spec (additive → multiplicative → unary → primary, binary
operators strictly left-associative, unary signs binding tighter,
parentheses resetting to the additive level) is modelled by the mutual
inductive below, written from the words of the spec.  Operator chains are kept
as a head term plus a list-like continuation (`MulK`, `AddK`) so that the
left-fold evaluation order is explicit.  `denote*` is the spec-side
meaning: exact left-to-right, precedence-respecting arithmetic. -/

/-- Multiplicative-level binary operators. -/
inductive MOp where
  | mul | div
  deriving DecidableEq

/-- Additive-level binary operators. -/
inductive AOp where
  | add | sub
  deriving DecidableEq

mutual
inductive PrimE where
  | num : List Char → PrimE
  | paren : AddE → PrimE

inductive UnE where
  | pos : PrimE → UnE
  | neg : PrimE → UnE
  | plain : PrimE → UnE

inductive MulE where
  | first : UnE → MulK → MulE

inductive MulK where
  | stop : MulK
  | cont : MOp → UnE → MulK → MulK

inductive AddE where
  | first : MulE → AddK → AddE

inductive AddK where
  | stop : AddK
  | cont : AOp → MulE → AddK → AddK
end

def mopChar : MOp → Char
  | .mul => '*'
  | .div => '/'

def aopChar : AOp → Char
  | .add => '+'
  | .sub => '-'

def mopApply : MOp → FVal → FVal → FVal
  | .mul => FVal.mul
  | .div => FVal.div

def aopApply : AOp → FVal → FVal → FVal
  | .add => FVal.add
  | .sub => FVal.sub

mutual
/-- The concrete text of a primary expression. -/
def renderP : PrimE → List Char
  | .num ds => ds
  | .paren e => '(' :: (renderA e ++ [')'])

def renderU : UnE → List Char
  | .pos p => '+' :: renderP p
  | .neg p => '-' :: renderP p
  | .plain p => renderP p

def renderM : MulE → List Char
  | .first u k => renderU u ++ renderMK k

def renderMK : MulK → List Char
  | .stop => []
  | .cont op u k => mopChar op :: (renderU u ++ renderMK k)

def renderA : AddE → List Char
  | .first m k => renderM m ++ renderAK k

def renderAK : AddK → List Char
  | .stop => []
  | .cont op m k => aopChar op :: (renderM m ++ renderAK k)
end

mutual
/-- Spec-side value of a primary expression (exact arithmetic). -/
def denoteP : PrimE → FVal
  | .num ds => FVal.finite (natOfDigits ds)
  | .paren e => denoteA e

def denoteU : UnE → FVal
  | .pos p => denoteP p
  | .neg p => FVal.neg (denoteP p)
  | .plain p => denoteP p

def denoteM : MulE → FVal
  | .first u k => denoteMK (denoteU u) k

/-- Left fold of a multiplicative chain over a running total. -/
def denoteMK : FVal → MulK → FVal
  | acc, .stop => acc
  | acc, .cont op u k => denoteMK (mopApply op acc (denoteU u)) k

def denoteA : AddE → FVal
  | .first m k => denoteAK (denoteM m) k

/-- Left fold of an additive chain over a running total. -/
def denoteAK : FVal → AddK → FVal
  | acc, .stop => acc
  | acc, .cont op m k => denoteAK (aopApply op acc (denoteM m)) k
end

mutual
/-- Well-formedness: every literal is a nonempty run of ASCII digits. -/
def okP : PrimE → Bool
  | .num ds => !ds.isEmpty && ds.all Char.isDigit
  | .paren e => okA e

def okU : UnE → Bool
  | .pos p => okP p
  | .neg p => okP p
  | .plain p => okP p

def okM : MulE → Bool
  | .first u k => okU u && okMK k

def okMK : MulK → Bool
  | .stop => true
  | .cont _ u k => okU u && okMK k

def okA : AddE → Bool
  | .first m k => okM m && okAK k

def okAK : AddK → Bool
  | .stop => true
  | .cont _ m k => okM m && okAK k
end

mutual
/-- Fuel bound sufficient to parse a primary expression. -/
def szP : PrimE → Nat
  | .num _ => 3
  | .paren e => szA e + 3

def szU : UnE → Nat
  | .pos p => szP p + 3
  | .neg p => szP p + 3
  | .plain p => szP p + 3

def szM : MulE → Nat
  | .first u k => szU u + szMK k + 3

def szMK : MulK → Nat
  | .stop => 3
  | .cont _ u k => szU u + szMK k + 3

def szA : AddE → Nat
  | .first m k => szM m + szAK k + 4

def szAK : AddK → Nat
  | .stop => 4
  | .cont _ m k => szM m + szAK k + 4
end

/-- A value on which the embedding is bit-faithful to `f64`: an integer of
magnitude at most `2 ^ 53`.  Every such integer is exactly representable in
binary64, and every IEEE operation returns the correctly rounded exact
result, so an operation whose exact result is such an integer is computed
exactly by the program; infinities and `nan` are excluded. -/
def exactVal : FVal → Bool
  | FVal.finite q => q.den == 1 && decide (q.num.natAbs ≤ 2 ^ 53)
  | _ => false

mutual
/-- Every literal and every intermediate result in the expression is an
integer of magnitude at most `2 ^ 53`.  On this fragment the program
computes with `f64` exactly the values of the rational embedding: each
literal parses exactly, and each operation (including an exact integer
division and unary negation) returns its exact result. -/
def exactP : PrimE → Bool
  | .num ds => exactVal (FVal.finite (natOfDigits ds))
  | .paren e => exactA e

def exactU : UnE → Bool
  | .pos p => exactP p
  | .neg p => exactP p
  | .plain p => exactP p

def exactM : MulE → Bool
  | .first u k => exactU u && exactMK (denoteU u) k

/-- Checks the running total after each step of a multiplicative chain. -/
def exactMK : FVal → MulK → Bool
  | _, .stop => true
  | acc, .cont op u k =>
      exactU u && exactVal (mopApply op acc (denoteU u)) &&
        exactMK (mopApply op acc (denoteU u)) k

def exactA : AddE → Bool
  | .first m k => exactM m && exactAK (denoteM m) k

/-- Checks the running total after each step of an additive chain. -/
def exactAK : FVal → AddK → Bool
  | _, .stop => true
  | acc, .cont op m k =>
      exactM m && exactVal (aopApply op acc (denoteM m)) &&
        exactAK (aopApply op acc (denoteM m)) k
end

/-- The continuation after a rendered subexpression never starts with a
digit (it is an operator, a closing parenthesis, or the newline), so the
maximal-digit-run rule of the lexer cannot merge a literal with what follows. -/
def HeadNonDigit (rest : List Char) : Prop :=
  ∃ c rs, rest = c :: rs ∧ c.isDigit = false

/-! ### Lexer stepping lemmas -/

theorem opChar_not_ws {c : Char} (h : isOpChar c = true) : c.isWhitespace = false := by
  simp only [isOpChar, Bool.or_eq_true, decide_eq_true_eq] at h
  rcases h with ((((((h | h) | h) | h) | h) | h) | h) <;> subst h <;> decide

theorem opChar_not_digit {c : Char} (h : isOpChar c = true) : c.isDigit = false := by
  simp only [isOpChar, Bool.or_eq_true, decide_eq_true_eq] at h
  rcases h with ((((((h | h) | h) | h) | h) | h) | h) <;> subst h <;> decide

theorem digit_not_ws {c : Char} (h : c.isDigit = true) : c.isWhitespace = false := by
  cases hw : c.isWhitespace
  · rfl
  · exfalso
    simp only [Char.isWhitespace, Bool.or_eq_true, decide_eq_true_eq] at hw
    rcases hw with ((hw | hw) | hw) | hw <;> subst hw <;> simp [Char.isDigit] at h

theorem dropWhile_append_all {α : Type} {p : α → Bool} :
    ∀ (l1 l2 : List α), l1.all p = true → (l1 ++ l2).dropWhile p = l2.dropWhile p := by
  intro l1
  induction l1 with
  | nil => intro l2 _; rfl
  | cons a l ih =>
    intro l2 h
    simp only [List.all_cons, Bool.and_eq_true] at h
    simp [List.dropWhile, h.1, ih l2 h.2]

theorem takeWhile_append_all {α : Type} {p : α → Bool} :
    ∀ (l1 l2 : List α), l1.all p = true → (l1 ++ l2).takeWhile p = l1 ++ l2.takeWhile p := by
  intro l1
  induction l1 with
  | nil => intro l2 _; rfl
  | cons a l ih =>
    intro l2 h
    simp only [List.all_cons, Bool.and_eq_true] at h
    simp [List.takeWhile, h.1, ih l2 h.2]

/-- Lexing an operator character consumes exactly that character. -/
theorem lex_op (c : Char) (rest : List Char) (h : isOpChar c = true) :
    Lexer.next (c :: rest) = some (Token.Operator c, rest) := by
  simp [Lexer.next, List.dropWhile, opChar_not_ws h, opChar_not_digit h, h]

/-- Lexing a nonempty all-digit run followed by a non-digit produces the
number token for exactly that run. -/
theorem lex_digits (ds : List Char) (c : Char) (rest : List Char)
    (h1 : ds ≠ []) (h2 : ds.all Char.isDigit = true) (h3 : c.isDigit = false) :
    Lexer.next (ds ++ c :: rest) =
      some (Token.Number (FVal.finite (natOfDigits ds)), c :: rest) := by
  rcases ds with _ | ⟨d, ds2⟩
  · exact absurd rfl h1
  · have hall := h2
    simp only [List.all_cons, Bool.and_eq_true] at hall
    have hdd : (ds2 ++ c :: rest).dropWhile Char.isDigit = c :: rest := by
      rw [dropWhile_append_all _ _ hall.2]
      simp [List.dropWhile, h3]
    have hdt : (ds2 ++ c :: rest).takeWhile Char.isDigit = ds2 := by
      rw [takeWhile_append_all _ _ hall.2]
      simp [List.takeWhile, h3]
    simp [Lexer.next, List.dropWhile, List.takeWhile, hall.1,
      digit_not_ws hall.1, hdd, hdt]

/-- Lexing the final newline yields `End` and leaves the input unchanged. -/
theorem lex_nl : Lexer.next ['\n'] = some (Token.End, ['\n']) := by decide

/-- A unary level run on a state whose `current` already holds a `Number`
returns that number and leaves the state unchanged (it falls through to the
primary level, which returns the number without consuming tokens). -/
theorem un_passthrough (fuel : Nat) (p : ParserState) (v : FVal)
    (h : p.current = Token.Number v) (hf : 2 ≤ fuel) :
    run fuel Lv.un p = Res.ok v p := by
  obtain ⟨n, rfl⟩ : ∃ n, fuel = n + 2 := ⟨fuel - 2, by omega⟩
  simp [run, eval_unary_expr, eval_primary_expr, h]

/-- A multiplicative level run on a state whose `current` holds a `Number`
and whose `look_ahead` is not `*`/`/` returns that number and leaves the
state unchanged. -/
theorem mul_passthrough (fuel : Nat) (p : ParserState) (v : FVal)
    (h : p.current = Token.Number v)
    (hla : ∀ c, p.look_ahead = Token.Operator c → (c = '*' ∨ c = '/') → False)
    (hf : 3 ≤ fuel) :
    run fuel Lv.mul p = Res.ok v p := by
  obtain ⟨n, rfl⟩ : ∃ n, fuel = n + 3 := ⟨fuel - 3, by omega⟩
  have hu : run (n + 2) Lv.un p = Res.ok v p := un_passthrough _ p v h (by omega)
  have hstep : run (n + 3) Lv.mul p = mul_loop (run (n + 2)) p := by
    simp only [run]
    unfold eval_mul_expr
    rw [hu]
  rw [hstep]
  unfold mul_loop
  split
  · rename_i c hc
    split
    · rename_i hcond
      exfalso
      simp only [Bool.or_eq_true, decide_eq_true_eq] at hcond
      exact hla c hc hcond
    · simp [mul_exit, h]
  · simp [mul_exit, h]

theorem hbd_renderMK (k : MulK) (rest : List Char) (hbd : HeadNonDigit rest) :
    HeadNonDigit (renderMK k ++ rest) := by
  cases k with
  | stop => simpa [renderMK] using hbd
  | cont op u k2 =>
    exact ⟨mopChar op, renderU u ++ renderMK k2 ++ rest,
      by simp [renderMK], by cases op <;> decide⟩

theorem hbd_renderAK (k : AddK) (rest : List Char) (hbd : HeadNonDigit rest) :
    HeadNonDigit (renderAK k ++ rest) := by
  cases k with
  | stop => simpa [renderAK] using hbd
  | cont op m k2 =>
    exact ⟨aopChar op, renderM m ++ renderAK k2 ++ rest,
      by simp [renderAK], by cases op <;> decide⟩

/-! ### The refinement: the parser computes the spec-side denotation

Each lemma says: started at the state the two-slot buffer reaches at the
beginning of the rendered subexpression (the first two tokens in the
buffer, the rest still unlexed), the corresponding grammar level returns
the denotation, leaves it in `current` as a `Number`, and leaves the first
token of the continuation in `look_ahead`. -/

mutual

theorem primOk (e : PrimE) (rest : List Char) (la : Token) (raw2 : List Char) (fuel : Nat)
    (hok : okP e = true) (hf : szP e ≤ fuel)
    (hrest : Lexer.next rest = some (la, raw2)) (hbd : HeadNonDigit rest) :
    ∃ t1 cs1 t2 cs2,
      Lexer.next (renderP e ++ rest) = some (t1, cs1) ∧
      Lexer.next cs1 = some (t2, cs2) ∧
      (t1 = Token.Operator '(' ∨ ∃ q, t1 = Token.Number q) ∧
      run fuel Lv.prim ⟨cs2, t1, t2⟩ =
        Res.ok (denoteP e) ⟨raw2, Token.Number (denoteP e), la⟩ := by
  cases e with
  | num ds =>
    simp only [okP, Bool.and_eq_true] at hok
    have hne : ds ≠ [] := by
      intro hnil
      subst hnil
      simp at hok
    simp only [szP] at hf
    obtain ⟨n, rfl⟩ : ∃ n, fuel = n + 1 := ⟨fuel - 1, by omega⟩
    obtain ⟨c, rs, rfl, hcd⟩ := hbd
    have hlex := lex_digits ds c rs hne hok.2 hcd
    refine ⟨Token.Number (FVal.finite (natOfDigits ds)), c :: rs, la, raw2,
      by simpa [renderP] using hlex, hrest, Or.inr ⟨_, rfl⟩, ?_⟩
    simp [run, eval_primary_expr, denoteP]
  | paren e2 =>
    simp only [okP] at hok
    simp only [szP] at hf
    obtain ⟨n, rfl⟩ : ∃ n, fuel = n + 1 := ⟨fuel - 1, by omega⟩
    have hrp : Lexer.next (')' :: rest) = some (Token.Operator ')', rest) :=
      lex_op ')' rest (by decide)
    have hbd2 : HeadNonDigit (')' :: rest) := ⟨')', rest, rfl, by decide⟩
    have hlaA : ∀ c, (Token.Operator ')' : Token) = Token.Operator c →
        (c = '+' ∨ c = '-' ∨ c = '*' ∨ c = '/') → False := by
      intro c hcc hor
      injection hcc with h
      subst h
      rcases hor with h | h | h | h <;> exact absurd h.symm (by decide)
    obtain ⟨t1A, cs1A, t2A, cs2A, hA1, hA2, hArun⟩ :=
      addOk e2 (')' :: rest) (Token.Operator ')') rest n hok (by omega) hrp hbd2 hlaA
    have hl1 : Lexer.next (renderP (PrimE.paren e2) ++ rest) =
        some (Token.Operator '(', renderA e2 ++ ')' :: rest) := by
      have hsh : renderP (PrimE.paren e2) ++ rest = '(' :: (renderA e2 ++ ')' :: rest) := by
        simp [renderP]
      rw [hsh]
      exact lex_op '(' _ (by decide)
    refine ⟨Token.Operator '(', renderA e2 ++ ')' :: rest, t1A, cs1A, hl1, hA1,
      Or.inl rfl, ?_⟩
    have hsh1 : Parser.shift ⟨cs1A, Token.Operator '(', t1A⟩ =
        some (Token.Operator '(', ⟨cs2A, t1A, t2A⟩) := by
      simp [Parser.shift, hA2]
    have hsh2 : Parser.shift ⟨rest, Token.Number (denoteA e2), Token.Operator ')'⟩ =
        some (Token.Number (denoteA e2), ⟨raw2, Token.Operator ')', la⟩) := by
      simp [Parser.shift, hrest]
    simp [run, eval_primary_expr, hsh1, hArun, hsh2, denoteP]

theorem unOk (e : UnE) (rest : List Char) (la : Token) (raw2 : List Char) (fuel : Nat)
    (hok : okU e = true) (hf : szU e ≤ fuel)
    (hrest : Lexer.next rest = some (la, raw2)) (hbd : HeadNonDigit rest) :
    ∃ t1 cs1 t2 cs2,
      Lexer.next (renderU e ++ rest) = some (t1, cs1) ∧
      Lexer.next cs1 = some (t2, cs2) ∧
      run fuel Lv.un ⟨cs2, t1, t2⟩ =
        Res.ok (denoteU e) ⟨raw2, Token.Number (denoteU e), la⟩ := by
  cases e with
  | plain p =>
    simp only [okU] at hok
    simp only [szU] at hf
    obtain ⟨n, rfl⟩ : ∃ n, fuel = n + 1 := ⟨fuel - 1, by omega⟩
    obtain ⟨t1, cs1, t2, cs2, h1, h2, hch, hrun⟩ :=
      primOk p rest la raw2 n hok (by omega) hrest hbd
    refine ⟨t1, cs1, t2, cs2, by simpa [renderU] using h1, h2, ?_⟩
    rcases hch with h | ⟨q, h⟩ <;> subst h <;>
      simp [run, eval_unary_expr, hrun, denoteU]
  | pos p =>
    simp only [okU] at hok
    simp only [szU] at hf
    obtain ⟨n, rfl⟩ : ∃ n, fuel = n + 1 := ⟨fuel - 1, by omega⟩
    obtain ⟨t1p, cs1p, t2p, cs2p, hp1, hp2, hch, hprun⟩ :=
      primOk p rest la raw2 n hok (by omega) hrest hbd
    have hl1 : Lexer.next (renderU (UnE.pos p) ++ rest) =
        some (Token.Operator '+', renderP p ++ rest) := by
      have hsh : renderU (UnE.pos p) ++ rest = '+' :: (renderP p ++ rest) := by
        simp [renderU]
      rw [hsh]
      exact lex_op '+' _ (by decide)
    refine ⟨Token.Operator '+', renderP p ++ rest, t1p, cs1p, hl1, hp1, ?_⟩
    have hsh1 : Parser.shift ⟨cs1p, Token.Operator '+', t1p⟩ =
        some (Token.Operator '+', ⟨cs2p, t1p, t2p⟩) := by
      simp [Parser.shift, hp2]
    simp [run, eval_unary_expr, hsh1, hprun, denoteU]
  | neg p =>
    simp only [okU] at hok
    simp only [szU] at hf
    obtain ⟨n, rfl⟩ : ∃ n, fuel = n + 1 := ⟨fuel - 1, by omega⟩
    obtain ⟨t1p, cs1p, t2p, cs2p, hp1, hp2, hch, hprun⟩ :=
      primOk p rest la raw2 n hok (by omega) hrest hbd
    have hl1 : Lexer.next (renderU (UnE.neg p) ++ rest) =
        some (Token.Operator '-', renderP p ++ rest) := by
      have hsh : renderU (UnE.neg p) ++ rest = '-' :: (renderP p ++ rest) := by
        simp [renderU]
      rw [hsh]
      exact lex_op '-' _ (by decide)
    refine ⟨Token.Operator '-', renderP p ++ rest, t1p, cs1p, hl1, hp1, ?_⟩
    have hsh1 : Parser.shift ⟨cs1p, Token.Operator '-', t1p⟩ =
        some (Token.Operator '-', ⟨cs2p, t1p, t2p⟩) := by
      simp [Parser.shift, hp2]
    simp [run, eval_unary_expr, hsh1, hprun, denoteU]

theorem mulKOk (k : MulK) (acc : FVal) (rest : List Char) (la : Token) (raw2 : List Char)
    (fuel : Nat)
    (hok : okMK k = true) (hf : szMK k ≤ fuel)
    (hrest : Lexer.next rest = some (la, raw2)) (hbd : HeadNonDigit rest)
    (hla : ∀ c, la = Token.Operator c → (c = '*' ∨ c = '/') → False) :
    ∃ laK rawK,
      Lexer.next (renderMK k ++ rest) = some (laK, rawK) ∧
      mul_loop (run fuel) ⟨rawK, Token.Number acc, laK⟩ =
        Res.ok (denoteMK acc k) ⟨raw2, Token.Number (denoteMK acc k), la⟩ := by
  cases k with
  | stop =>
    refine ⟨la, raw2, by simpa [renderMK] using hrest, ?_⟩
    simp only [denoteMK]
    unfold mul_loop
    split
    · rename_i c hc
      split
      · rename_i hcond
        exfalso
        simp only [Bool.or_eq_true, decide_eq_true_eq] at hcond
        exact hla c hc hcond
      · simp [mul_exit]
    · simp [mul_exit]
  | cont op u2 k2 =>
    simp only [okMK, Bool.and_eq_true] at hok
    simp only [szMK] at hf
    obtain ⟨n, rfl⟩ : ∃ n, fuel = n + 1 := ⟨fuel - 1, by omega⟩
    obtain ⟨laK2, rawK2, hlex2, hloop2⟩ :=
      mulKOk k2 (mopApply op acc (denoteU u2)) rest la raw2 n hok.2 (by omega) hrest hbd hla
    obtain ⟨t1u, cs1u, t2u, cs2u, hu1, hu2, hurun⟩ :=
      unOk u2 (renderMK k2 ++ rest) laK2 rawK2 (n + 1) hok.1 (by omega) hlex2
        (hbd_renderMK k2 rest hbd)
    have hopc : isOpChar (mopChar op) = true := by cases op <;> decide
    have hl1 : Lexer.next (renderMK (MulK.cont op u2 k2) ++ rest) =
        some (Token.Operator (mopChar op), renderU u2 ++ (renderMK k2 ++ rest)) := by
      have hsh : renderMK (MulK.cont op u2 k2) ++ rest =
          mopChar op :: (renderU u2 ++ (renderMK k2 ++ rest)) := by
        simp [renderMK]
      rw [hsh]
      exact lex_op _ _ hopc
    refine ⟨Token.Operator (mopChar op), renderU u2 ++ (renderMK k2 ++ rest), hl1, ?_⟩
    have hsh1 : Parser.shift ⟨renderU u2 ++ (renderMK k2 ++ rest), Token.Number acc,
        Token.Operator (mopChar op)⟩ =
        some (Token.Number acc, ⟨cs1u, Token.Operator (mopChar op), t1u⟩) := by
      simp [Parser.shift, hu1]
    have hsh2 : Parser.shift ⟨cs1u, Token.Operator (mopChar op), t1u⟩ =
        some (Token.Operator (mopChar op), ⟨cs2u, t1u, t2u⟩) := by
      simp [Parser.shift, hu2]
    have hmid : run (n + 1) Lv.mul
        ⟨rawK2, Token.Number (mopApply op acc (denoteU u2)), laK2⟩ =
        Res.ok (denoteMK acc (MulK.cont op u2 k2))
          ⟨raw2, Token.Number (denoteMK acc (MulK.cont op u2 k2)), la⟩ := by
      have hpass : run n Lv.un ⟨rawK2, Token.Number (mopApply op acc (denoteU u2)), laK2⟩ =
          Res.ok (mopApply op acc (denoteU u2))
            ⟨rawK2, Token.Number (mopApply op acc (denoteU u2)), laK2⟩ :=
        un_passthrough n _ _ rfl (by omega)
      have hstep : run (n + 1) Lv.mul
          ⟨rawK2, Token.Number (mopApply op acc (denoteU u2)), laK2⟩ =
          mul_loop (run n) ⟨rawK2, Token.Number (mopApply op acc (denoteU u2)), laK2⟩ := by
        simp only [run]
        unfold eval_mul_expr
        rw [hpass]
      rw [hstep, hloop2]
      simp [denoteMK]
    cases op with
    | mul =>
      simp only [mopChar] at hsh1 hsh2
      simp only [mopApply] at hmid
      simp [mul_loop, hsh1, hsh2, hurun, hmid, Token.get_number, denoteMK, mopApply,
        mopChar]
    | div =>
      simp only [mopChar] at hsh1 hsh2
      simp only [mopApply] at hmid
      simp [mul_loop, hsh1, hsh2, hurun, hmid, Token.get_number, denoteMK, mopApply,
        mopChar]

theorem mulOk (e : MulE) (rest : List Char) (la : Token) (raw2 : List Char) (fuel : Nat)
    (hok : okM e = true) (hf : szM e ≤ fuel)
    (hrest : Lexer.next rest = some (la, raw2)) (hbd : HeadNonDigit rest)
    (hla : ∀ c, la = Token.Operator c → (c = '*' ∨ c = '/') → False) :
    ∃ t1 cs1 t2 cs2,
      Lexer.next (renderM e ++ rest) = some (t1, cs1) ∧
      Lexer.next cs1 = some (t2, cs2) ∧
      run fuel Lv.mul ⟨cs2, t1, t2⟩ =
        Res.ok (denoteM e) ⟨raw2, Token.Number (denoteM e), la⟩ := by
  cases e with
  | first u k =>
    simp only [okM, Bool.and_eq_true] at hok
    simp only [szM] at hf
    obtain ⟨n, rfl⟩ : ∃ n, fuel = n + 1 := ⟨fuel - 1, by omega⟩
    obtain ⟨laK, rawK, hlexK, hloopK⟩ :=
      mulKOk k (denoteU u) rest la raw2 n hok.2 (by omega) hrest hbd hla
    obtain ⟨t1, cs1, t2, cs2, h1, h2, hurun⟩ :=
      unOk u (renderMK k ++ rest) laK rawK n hok.1 (by omega) hlexK
        (hbd_renderMK k rest hbd)
    refine ⟨t1, cs1, t2, cs2, by simpa [renderM, List.append_assoc] using h1, h2, ?_⟩
    have hstep : run (n + 1) Lv.mul ⟨cs2, t1, t2⟩ =
        mul_loop (run n) ⟨rawK, Token.Number (denoteU u), laK⟩ := by
      simp only [run]
      unfold eval_mul_expr
      rw [hurun]
    rw [hstep, hloopK]
    simp [denoteM]

theorem addKOk (k : AddK) (acc : FVal) (rest : List Char) (la : Token) (raw2 : List Char)
    (fuel : Nat)
    (hok : okAK k = true) (hf : szAK k ≤ fuel)
    (hrest : Lexer.next rest = some (la, raw2)) (hbd : HeadNonDigit rest)
    (hla : ∀ c, la = Token.Operator c → (c = '+' ∨ c = '-' ∨ c = '*' ∨ c = '/') → False) :
    ∃ laK rawK,
      Lexer.next (renderAK k ++ rest) = some (laK, rawK) ∧
      (∀ c, laK = Token.Operator c → (c = '*' ∨ c = '/') → False) ∧
      add_loop (run fuel) ⟨rawK, Token.Number acc, laK⟩ =
        Res.ok (denoteAK acc k) ⟨raw2, Token.Number (denoteAK acc k), la⟩ := by
  cases k with
  | stop =>
    refine ⟨la, raw2, by simpa [renderAK] using hrest,
      fun c hcc hor => hla c hcc (Or.inr (Or.inr hor)), ?_⟩
    simp only [denoteAK]
    unfold add_loop
    split
    · rename_i c hc
      split
      · rename_i hcond
        exfalso
        simp only [Bool.or_eq_true, decide_eq_true_eq] at hcond
        rcases hcond with h | h
        · exact hla c hc (Or.inl h)
        · exact hla c hc (Or.inr (Or.inl h))
      · simp [add_exit]
    · simp [add_exit]
  | cont op m2 k2 =>
    simp only [okAK, Bool.and_eq_true] at hok
    simp only [szAK] at hf
    obtain ⟨n, rfl⟩ : ∃ n, fuel = n + 1 := ⟨fuel - 1, by omega⟩
    obtain ⟨laK2, rawK2, hlex2, hstar2, hloop2⟩ :=
      addKOk k2 (aopApply op acc (denoteM m2)) rest la raw2 n hok.2 (by omega) hrest hbd hla
    obtain ⟨t1m, cs1m, t2m, cs2m, hm1, hm2, hmrun⟩ :=
      mulOk m2 (renderAK k2 ++ rest) laK2 rawK2 (n + 1) hok.1 (by omega) hlex2
        (hbd_renderAK k2 rest hbd) hstar2
    have hopc : isOpChar (aopChar op) = true := by cases op <;> decide
    have hl1 : Lexer.next (renderAK (AddK.cont op m2 k2) ++ rest) =
        some (Token.Operator (aopChar op), renderM m2 ++ (renderAK k2 ++ rest)) := by
      have hsh : renderAK (AddK.cont op m2 k2) ++ rest =
          aopChar op :: (renderM m2 ++ (renderAK k2 ++ rest)) := by
        simp [renderAK]
      rw [hsh]
      exact lex_op _ _ hopc
    refine ⟨Token.Operator (aopChar op), renderM m2 ++ (renderAK k2 ++ rest), hl1, ?_, ?_⟩
    · intro c hcc hor
      injection hcc with h
      subst h
      cases op <;> rcases hor with h2 | h2 <;> exact absurd h2.symm (by decide)
    · have hsh1 : Parser.shift ⟨renderM m2 ++ (renderAK k2 ++ rest), Token.Number acc,
          Token.Operator (aopChar op)⟩ =
          some (Token.Number acc, ⟨cs1m, Token.Operator (aopChar op), t1m⟩) := by
        simp [Parser.shift, hm1]
      have hsh2 : Parser.shift ⟨cs1m, Token.Operator (aopChar op), t1m⟩ =
          some (Token.Operator (aopChar op), ⟨cs2m, t1m, t2m⟩) := by
        simp [Parser.shift, hm2]
      have hmid : run (n + 1) Lv.add
          ⟨rawK2, Token.Number (aopApply op acc (denoteM m2)), laK2⟩ =
          Res.ok (denoteAK acc (AddK.cont op m2 k2))
            ⟨raw2, Token.Number (denoteAK acc (AddK.cont op m2 k2)), la⟩ := by
        have hpass : run n Lv.mul
            ⟨rawK2, Token.Number (aopApply op acc (denoteM m2)), laK2⟩ =
            Res.ok (aopApply op acc (denoteM m2))
              ⟨rawK2, Token.Number (aopApply op acc (denoteM m2)), laK2⟩ :=
          mul_passthrough n _ _ rfl (fun c hc hor => hstar2 c hc hor) (by omega)
        have hstep : run (n + 1) Lv.add
            ⟨rawK2, Token.Number (aopApply op acc (denoteM m2)), laK2⟩ =
            add_loop (run n) ⟨rawK2, Token.Number (aopApply op acc (denoteM m2)), laK2⟩ := by
          simp only [run]
          unfold eval_add_expr
          rw [hpass]
        rw [hstep, hloop2]
        simp [denoteAK]
      cases op with
      | add =>
        simp only [aopChar] at hsh1 hsh2
        simp only [aopApply] at hmid
        simp [add_loop, hsh1, hsh2, hmrun, hmid, Token.get_number, denoteAK, aopApply,
          aopChar]
      | sub =>
        simp only [aopChar] at hsh1 hsh2
        simp only [aopApply] at hmid
        simp [add_loop, hsh1, hsh2, hmrun, hmid, Token.get_number, denoteAK, aopApply,
          aopChar]

theorem addOk (e : AddE) (rest : List Char) (la : Token) (raw2 : List Char) (fuel : Nat)
    (hok : okA e = true) (hf : szA e ≤ fuel)
    (hrest : Lexer.next rest = some (la, raw2)) (hbd : HeadNonDigit rest)
    (hla : ∀ c, la = Token.Operator c → (c = '+' ∨ c = '-' ∨ c = '*' ∨ c = '/') → False) :
    ∃ t1 cs1 t2 cs2,
      Lexer.next (renderA e ++ rest) = some (t1, cs1) ∧
      Lexer.next cs1 = some (t2, cs2) ∧
      run fuel Lv.add ⟨cs2, t1, t2⟩ =
        Res.ok (denoteA e) ⟨raw2, Token.Number (denoteA e), la⟩ := by
  cases e with
  | first m k =>
    simp only [okA, Bool.and_eq_true] at hok
    simp only [szA] at hf
    obtain ⟨n, rfl⟩ : ∃ n, fuel = n + 1 := ⟨fuel - 1, by omega⟩
    obtain ⟨laK, rawK, hlexK, hstarK, hloopK⟩ :=
      addKOk k (denoteM m) rest la raw2 n hok.2 (by omega) hrest hbd hla
    obtain ⟨t1, cs1, t2, cs2, h1, h2, hmrun⟩ :=
      mulOk m (renderAK k ++ rest) laK rawK n hok.1 (by omega) hlexK
        (hbd_renderAK k rest hbd) hstarK
    refine ⟨t1, cs1, t2, cs2, by simpa [renderA, List.append_assoc] using h1, h2, ?_⟩
    have hstep : run (n + 1) Lv.add ⟨cs2, t1, t2⟩ =
        add_loop (run n) ⟨rawK, Token.Number (denoteM m), laK⟩ := by
      simp only [run]
      unfold eval_add_expr
      rw [hmrun]
    rw [hstep, hloopK]
    simp [denoteA]

end

/-- Soundness for the whole line: `Parser::eval` on a rendered well-formed
expression (followed by the newline `read_line` keeps) computes the
spec-side denotation. -/
theorem eval_render (e : AddE) (fuel : Nat) (hok : okA e = true) (hf : szA e ≤ fuel) :
    Parser.eval fuel (renderA e ++ ['\n']) =
      Res.ok (denoteA e) ⟨['\n'], Token.Number (denoteA e), Token.End⟩ := by
  have hla : ∀ c, (Token.End : Token) = Token.Operator c →
      (c = '+' ∨ c = '-' ∨ c = '*' ∨ c = '/') → False := by
    intro c hcc _
    exact Token.noConfusion hcc
  obtain ⟨t1, cs1, t2, cs2, h1, h2, hrun⟩ :=
    addOk e ['\n'] Token.End ['\n'] fuel hok hf lex_nl ⟨'\n', [], rfl, by decide⟩ hla
  have hsh1 : Parser.shift ⟨renderA e ++ ['\n'], Token.Empty, Token.Empty⟩ =
      some (Token.Empty, ⟨cs1, Token.Empty, t1⟩) := by
    simp [Parser.shift, h1]
  have hsh2 : Parser.shift ⟨cs1, Token.Empty, t1⟩ =
      some (Token.Empty, ⟨cs2, t1, t2⟩) := by
    simp [Parser.shift, h2]
  simp [Parser.eval, hsh1, hsh2, hrun]

/-- C1 counterexample: the claim quantifies over every valid expression
string and asserts in particular `eval("1+2*3") = Ok(7)` — but on the bare
string `"1+2*3"` the program panics (the digit run of the final literal
reaches the end of input and the `.unwrap()` on `find` fails); `Ok(7)`
arises only for the newline-terminated line `read_line` hands over. -/
theorem c1_counterexample :
    Parser.eval 32 ('1' :: '+' :: '2' :: '*' :: '3' :: []) = Res.panicked "lexer" := by
  decide

/-- C1 (amended): for every well-formed expression of the grammar (digit
literals, binary `+ - * /`, unary signs, balanced parentheses) that is
presented as the driver presents it — the line including its trailing
newline — and in which every literal and every intermediate result is an
integer of magnitude at most `2 ^ 53` (`exactA`, the range where `f64`
arithmetic is exact, so the rational embedding is bit-faithful),
`Parser::eval` returns `Ok` of the value given by standard left-to-right,
precedence-respecting arithmetic (the left-fold denotation `denoteA`).
Outside that range `f64` rounding makes the program diverge from exact
real-valued arithmetic, e.g. at the literal `99999999999999999`. -/
theorem c1_exact_expressions_evaluate :
    ∀ (e : AddE) (fuel : Nat), okA e = true → exactA e = true → szA e ≤ fuel →
      Parser.eval fuel (renderA e ++ ['\n']) =
        Res.ok (denoteA e) ⟨['\n'], Token.Number (denoteA e), Token.End⟩ :=
  fun e fuel hok _ hf => eval_render e fuel hok hf

/-- The expression `1+2*3` as a grammar term. -/
def c1ast1 : AddE :=
  AddE.first (MulE.first (UnE.plain (PrimE.num ['1'])) MulK.stop)
    (AddK.cont AOp.add
      (MulE.first (UnE.plain (PrimE.num ['2']))
        (MulK.cont MOp.mul (UnE.plain (PrimE.num ['3'])) MulK.stop))
      AddK.stop)

/-- The expression `(1+2)*3` as a grammar term. -/
def c1ast2 : AddE :=
  AddE.first
    (MulE.first
      (UnE.plain (PrimE.paren
        (AddE.first (MulE.first (UnE.plain (PrimE.num ['1'])) MulK.stop)
          (AddK.cont AOp.add (MulE.first (UnE.plain (PrimE.num ['2'])) MulK.stop)
            AddK.stop))))
      (MulK.cont MOp.mul (UnE.plain (PrimE.num ['3'])) MulK.stop))
    AddK.stop

/-- C1 witness: the amended theorem applied to the two examples of the
spec, `"1+2*3"` → `7` and `"(1+2)*3"` → `9` (both well inside the exact
range). -/
theorem c1_witness :
    okA c1ast1 = true ∧ exactA c1ast1 = true ∧ szA c1ast1 ≤ 64 ∧
    okA c1ast2 = true ∧ exactA c1ast2 = true ∧ szA c1ast2 ≤ 99 ∧
    Parser.eval 64 ('1' :: '+' :: '2' :: '*' :: '3' :: '\n' :: []) =
      Res.ok (FVal.finite 7) ⟨['\n'], Token.Number (FVal.finite 7), Token.End⟩ ∧
    Parser.eval 99 ('(' :: '1' :: '+' :: '2' :: ')' :: '*' :: '3' :: '\n' :: []) =
      Res.ok (FVal.finite 9) ⟨['\n'], Token.Number (FVal.finite 9), Token.End⟩ := by
  have h1 := c1_exact_expressions_evaluate c1ast1 64 (by decide)
    (by with_unfolding_all decide) (by decide)
  have h2 := c1_exact_expressions_evaluate c1ast2 99 (by decide)
    (by with_unfolding_all decide) (by decide)
  rw [show renderA c1ast1 ++ ['\n'] = '1' :: '+' :: '2' :: '*' :: '3' :: '\n' :: []
      from by decide,
    show denoteA c1ast1 = FVal.finite 7 from by with_unfolding_all decide] at h1
  rw [show renderA c1ast2 ++ ['\n'] = '(' :: '1' :: '+' :: '2' :: ')' :: '*' :: '3' :: '\n' :: []
      from by decide,
    show denoteA c1ast2 = FVal.finite 9 from by with_unfolding_all decide] at h2
  exact ⟨by decide, by with_unfolding_all decide, by decide,
    by decide, by with_unfolding_all decide, by decide, h1, h2⟩

/-- C4: binary operators of equal precedence are strictly left-associative:
a three-literal subtraction chain evaluates as `(a - b) - c` — not
`a - (b - c)` — and in particular `"8-3-2"` evaluates to `Ok(3)`, not
`Ok(7)`.  The general conjunct is stated for literals of at most 15 digits:
their values are below `10 ^ 15` and every intermediate of the chain has
magnitude below `2 * 10 ^ 15 < 2 ^ 53`, so the program computes these
integers exactly in `f64` and the rational embedding is bit-faithful on
this fragment. -/
theorem c4_left_associative :
    (∀ ds1 ds2 ds3 : List Char,
      (!ds1.isEmpty && ds1.all Char.isDigit) = true →
      (!ds2.isEmpty && ds2.all Char.isDigit) = true →
      (!ds3.isEmpty && ds3.all Char.isDigit) = true →
      ds1.length ≤ 15 → ds2.length ≤ 15 → ds3.length ≤ 15 →
      Parser.eval 64 (ds1 ++ '-' :: ds2 ++ '-' :: ds3 ++ ['\n']) =
        Res.ok (FVal.finite ((natOfDigits ds1 : ℚ) - natOfDigits ds2 - natOfDigits ds3))
          ⟨['\n'],
            Token.Number
              (FVal.finite ((natOfDigits ds1 : ℚ) - natOfDigits ds2 - natOfDigits ds3)),
            Token.End⟩) ∧
    Parser.eval 64 ('8' :: '-' :: '3' :: '-' :: '2' :: '\n' :: []) =
      Res.ok (FVal.finite 3) ⟨['\n'], Token.Number (FVal.finite 3), Token.End⟩ ∧
    (∀ p, Parser.eval 64 ('8' :: '-' :: '3' :: '-' :: '2' :: '\n' :: []) ≠
      Res.ok (FVal.finite 7) p) := by
  refine ⟨?_, by with_unfolding_all decide, ?_⟩
  · intro ds1 ds2 ds3 h1 h2 h3 hl1 hl2 hl3
    have he := eval_render
      (AddE.first (MulE.first (UnE.plain (PrimE.num ds1)) MulK.stop)
        (AddK.cont AOp.sub (MulE.first (UnE.plain (PrimE.num ds2)) MulK.stop)
          (AddK.cont AOp.sub (MulE.first (UnE.plain (PrimE.num ds3)) MulK.stop)
            AddK.stop)))
      64
      (by simp [okA, okM, okMK, okAK, okU, okP, h1, h2, h3])
      (by simp [szA, szM, szMK, szAK, szU, szP])
    simpa [renderA, renderM, renderMK, renderAK, renderU, renderP,
      denoteA, denoteM, denoteMK, denoteAK, denoteU, denoteP, aopApply, FVal.sub] using he
  · intro p h
    rw [show Parser.eval 64 ('8' :: '-' :: '3' :: '-' :: '2' :: '\n' :: []) =
        Res.ok (FVal.finite 3) ⟨['\n'], Token.Number (FVal.finite 3), Token.End⟩
      from by with_unfolding_all decide] at h
    injection h with hv _
    injection hv with hq
    exact absurd hq (by norm_num)

/-! ### Claim C5: the `%` token is never consumed

A `%` in the input can never be consumed by any grammar rule: successful
runs never move a `%` out of the `look_ahead`-plus-unlexed-input region, a
state whose `current` is `%` can never succeed, and a finished parse has
`look_ahead = End`, which forces the remaining input to be whitespace.
Together these show `Parser::eval` can never return `Ok` on an input
containing `%`. -/

/-- The End token can only be produced by the empty branch of the lexer, which leaves
the (all-whitespace) input unchanged. -/
theorem lex_end_ws {raw raw2 : List Char}
    (h : Lexer.next raw = some (Token.End, raw2)) :
    raw2 = raw ∧ raw.dropWhile Char.isWhitespace = [] := by
  unfold Lexer.next at h
  cases hs : raw.dropWhile Char.isWhitespace with
  | nil =>
    rw [hs] at h
    simp only [Option.some.injEq, Prod.mk.injEq] at h
    exact ⟨h.2.symm, rfl⟩
  | cons first rest =>
    exfalso
    rw [hs] at h
    by_cases hd : first.isDigit = true
    · simp only [hd, if_true] at h
      cases hdd : (first :: rest).dropWhile Char.isDigit with
      | nil => rw [hdd] at h; exact Option.noConfusion h
      | cons c cs =>
        rw [hdd] at h
        simp only [Option.some.injEq, Prod.mk.injEq] at h
        exact Token.noConfusion h.1
    · simp only [Bool.not_eq_true] at hd
      simp only [hd, Bool.false_eq_true, if_false] at h
      by_cases ho : isOpChar first = true
      · simp only [ho, if_true] at h
        simp only [Option.some.injEq, Prod.mk.injEq] at h
        exact Token.noConfusion h.1
      · simp only [Bool.not_eq_true] at ho
        simp only [ho, Bool.false_eq_true, if_false] at h
        exact Option.noConfusion h

theorem mem_of_dropWhile_ws {raw : List Char} (h : '%' ∈ raw) :
    '%' ∈ raw.dropWhile Char.isWhitespace := by
  have hsplit : raw.takeWhile Char.isWhitespace ++ raw.dropWhile Char.isWhitespace = raw :=
    List.takeWhile_append_dropWhile Char.isWhitespace raw
  rw [← hsplit] at h
  rcases List.mem_append.mp h with h2 | h2
  · exfalso
    have hws := List.mem_takeWhile_imp h2
    exact absurd hws (by decide)
  · exact h2

/-- A whitespace-only string contains no `%`. -/
theorem ws_only_no_pct {raw : List Char} (h : raw.dropWhile Char.isWhitespace = []) :
    '%' ∉ raw := by
  intro hmem
  have hm := mem_of_dropWhile_ws hmem
  rw [h] at hm
  exact List.not_mem_nil _ hm

/-- One lexer step never loses a `%`: it either returns the `%` token or
leaves the `%` in the remaining input. -/
theorem lex_pct {raw : List Char} {t : Token} {raw2 : List Char}
    (h : Lexer.next raw = some (t, raw2)) (hm : '%' ∈ raw) :
    t = Token.Operator '%' ∨ '%' ∈ raw2 := by
  have hms : '%' ∈ raw.dropWhile Char.isWhitespace := mem_of_dropWhile_ws hm
  unfold Lexer.next at h
  cases hs : raw.dropWhile Char.isWhitespace with
  | nil => rw [hs] at hms; exact absurd hms (List.not_mem_nil _)
  | cons first rest =>
    rw [hs] at h hms
    by_cases hd : first.isDigit = true
    · simp only [hd, if_true] at h
      cases hdd : (first :: rest).dropWhile Char.isDigit with
      | nil => rw [hdd] at h; exact Option.noConfusion h
      | cons c cs =>
        rw [hdd] at h
        simp only [Option.some.injEq, Prod.mk.injEq] at h
        right
        rw [← h.2]
        have hsplit : (first :: rest).takeWhile Char.isDigit ++
            (first :: rest).dropWhile Char.isDigit = first :: rest :=
          List.takeWhile_append_dropWhile Char.isDigit (first :: rest)
        rw [← hsplit] at hms
        rcases List.mem_append.mp hms with h2 | h2
        · exfalso
          have hdg := List.mem_takeWhile_imp h2
          exact absurd hdg (by decide)
        · rw [hdd] at h2
          exact h2
    · simp only [Bool.not_eq_true] at hd
      simp only [hd, Bool.false_eq_true, if_false] at h
      by_cases ho : isOpChar first = true
      · simp only [ho, if_true] at h
        simp only [Option.some.injEq, Prod.mk.injEq] at h
        rcases List.mem_cons.mp hms with h2 | h2
        · left
          rw [← h.1, ← h2]
        · right
          rw [← h.2]
          exact h2
      · simp only [Bool.not_eq_true] at ho
        simp only [ho, Bool.false_eq_true, if_false] at h
        exact Option.noConfusion h

/-- A state whose `current` token is the `%` operator can never produce a
successful result at any grammar level: the primary level rejects it. -/
theorem run_current_pct : ∀ fuel lv p, p.current = Token.Operator '%' →
    ∀ v p2, run fuel lv p ≠ Res.ok v p2 := by
  intro fuel
  induction fuel with
  | zero => intro lv p h v p2; simp [run]
  | succ n ih =>
    intro lv p h v p2
    cases lv with
    | prim =>
      show eval_primary_expr (run n) p ≠ _
      unfold eval_primary_expr
      split
      · rename_i c hc
        have hcp : c = '%' := by
          rw [h] at hc
          injection hc with h2
          exact h2.symm
        subst hcp
        split
        · rename_i hcond
          exact absurd hcond (by decide)
        · simp
      · rename_i w hc
        rw [h] at hc
        exact Token.noConfusion hc
      · simp
    | un =>
      show eval_unary_expr (run n) p ≠ _
      unfold eval_unary_expr
      split
      · rename_i c hc
        have hcp : c = '%' := by
          rw [h] at hc
          injection hc with h2
          exact h2.symm
        subst hcp
        split
        · rename_i hcond
          exact absurd hcond (by decide)
        · exact ih Lv.prim p h v p2
      · exact ih Lv.prim p h v p2
    | mul =>
      show eval_mul_expr (run n) p ≠ _
      unfold eval_mul_expr
      split
      · rename_i w p1 hr
        exact absurd hr (ih Lv.un p h w p1)
      · exact ih Lv.un p h v p2
    | add =>
      show eval_add_expr (run n) p ≠ _
      unfold eval_add_expr
      split
      · rename_i w p1 hr
        exact absurd hr (ih Lv.mul p h w p1)
      · exact ih Lv.mul p h v p2

/-- Successful runs never consume a `%`: if the `%` is in `look_ahead` or
in the unlexed input at entry, it still is at exit; and the property
"`look_ahead = End` forces an all-whitespace remainder" is preserved. -/
theorem run_pct : ∀ fuel lv p v p2, run fuel lv p = Res.ok v p2 →
    ((p.look_ahead = Token.Operator '%' ∨ '%' ∈ p.raw) →
      (p2.look_ahead = Token.Operator '%' ∨ '%' ∈ p2.raw)) ∧
    ((p.look_ahead = Token.End → p.raw.dropWhile Char.isWhitespace = []) →
      (p2.look_ahead = Token.End → p2.raw.dropWhile Char.isWhitespace = [])) := by
  intro fuel
  induction fuel with
  | zero => intro lv p v p2 h; simp [run] at h
  | succ n ih =>
    have hshend : ∀ (q1 : ParserState) (t : Token) (q : ParserState),
        Parser.shift q1 = some (t, q) →
        (q.look_ahead = Token.End → q.raw.dropWhile Char.isWhitespace = []) := by
      intro q1 t q hs hEnd
      have hl := (shift_spec q1 t q hs).2.2
      rw [hEnd] at hl
      obtain ⟨he, hw⟩ := lex_end_ws hl
      rw [he]
      exact hw
    have hshpct : ∀ (q1 : ParserState) (t : Token) (q : ParserState),
        Parser.shift q1 = some (t, q) → '%' ∈ q1.raw →
        (q.look_ahead = Token.Operator '%' ∨ '%' ∈ q.raw) := by
      intro q1 t q hs hm
      exact lex_pct ((shift_spec q1 t q hs).2.2) hm
    have hml : ∀ p1 v p2, mul_loop (run n) p1 = Res.ok v p2 →
        ((p1.look_ahead = Token.Operator '%' ∨ '%' ∈ p1.raw) →
          (p2.look_ahead = Token.Operator '%' ∨ '%' ∈ p2.raw)) ∧
        ((p1.look_ahead = Token.End → p1.raw.dropWhile Char.isWhitespace = []) →
          (p2.look_ahead = Token.End → p2.raw.dropWhile Char.isWhitespace = [])) := by
      intro p1 v p2 h
      unfold mul_loop at h
      split at h
      · rename_i c hlc
        split at h
        · rename_i hcond
          simp only [Bool.or_eq_true, decide_eq_true_eq] at hcond
          split at h
          · exact absurd h (by simp)
          · rename_i t1 p2s hs1
            split at h
            · exact absurd h (by simp)
            · rename_i op1 hget
              split at h
              · exact absurd h (by simp)
              · rename_i operator p3 hs2
                split at h
                · rename_i op2 p4 hr
                  have hp3cur : p3.current = p2s.look_ahead :=
                    (shift_spec p2s operator p3 hs2).2.1
                  have hp4 := ih Lv.un p3 op2 p4 hr
                  have hend3 := hshend p2s operator p3 hs2
                  have hbody : ∀ (w : FVal),
                      run n Lv.mul { p4 with current := Token.Number w } = Res.ok v p2 →
                      ((p1.look_ahead = Token.Operator '%' ∨ '%' ∈ p1.raw) →
                        (p2.look_ahead = Token.Operator '%' ∨ '%' ∈ p2.raw)) ∧
                      ((p1.look_ahead = Token.End →
                          p1.raw.dropWhile Char.isWhitespace = []) →
                        (p2.look_ahead = Token.End →
                          p2.raw.dropWhile Char.isWhitespace = [])) := by
                    intro w hw
                    have hp2 := ih Lv.mul _ v p2 hw
                    constructor
                    · intro hpct1
                      rcases hpct1 with hpl | hpr
                      · exfalso
                        rw [hlc] at hpl
                        injection hpl with hceq
                        rcases hcond with h2 | h2 <;> rw [hceq] at h2 <;>
                          exact absurd h2 (by decide)
                      · have h2s := hshpct p1 t1 p2s hs1 hpr
                        rcases h2s with h2l | h2r
                        · exfalso
                          exact run_current_pct n Lv.un p3 (by rw [hp3cur, h2l]) op2 p4 hr
                        · have h3s := hshpct p2s operator p3 hs2 h2r
                          have hp4pct := hp4.1 h3s
                          exact hp2.1 (by simpa using hp4pct)
                    · intro hend1
                      have hp4end := hp4.2 hend3
                      exact hp2.2 (by simpa using hp4end)
                  split at h
                  · exact hbody _ h
                  · split at h
                    · exact hbody _ h
                    · exact absurd h (by simp)
                · rename_i hne
                  exact absurd h (hne v p2)
        · unfold mul_exit at h
          split at h
          · injection h with h1 h2
            subst h2
            exact ⟨id, id⟩
          · exact absurd h (by simp)
      · unfold mul_exit at h
        split at h
        · injection h with h1 h2
          subst h2
          exact ⟨id, id⟩
        · exact absurd h (by simp)
    have hal : ∀ p1 v p2, add_loop (run n) p1 = Res.ok v p2 →
        ((p1.look_ahead = Token.Operator '%' ∨ '%' ∈ p1.raw) →
          (p2.look_ahead = Token.Operator '%' ∨ '%' ∈ p2.raw)) ∧
        ((p1.look_ahead = Token.End → p1.raw.dropWhile Char.isWhitespace = []) →
          (p2.look_ahead = Token.End → p2.raw.dropWhile Char.isWhitespace = [])) := by
      intro p1 v p2 h
      unfold add_loop at h
      split at h
      · rename_i c hlc
        split at h
        · rename_i hcond
          simp only [Bool.or_eq_true, decide_eq_true_eq] at hcond
          split at h
          · exact absurd h (by simp)
          · rename_i t1 p2s hs1
            split at h
            · exact absurd h (by simp)
            · rename_i op1 hget
              split at h
              · exact absurd h (by simp)
              · rename_i operator p3 hs2
                split at h
                · rename_i op2 p4 hr
                  have hp3cur : p3.current = p2s.look_ahead :=
                    (shift_spec p2s operator p3 hs2).2.1
                  have hp4 := ih Lv.mul p3 op2 p4 hr
                  have hend3 := hshend p2s operator p3 hs2
                  have hbody : ∀ (w : FVal),
                      run n Lv.add { p4 with current := Token.Number w } = Res.ok v p2 →
                      ((p1.look_ahead = Token.Operator '%' ∨ '%' ∈ p1.raw) →
                        (p2.look_ahead = Token.Operator '%' ∨ '%' ∈ p2.raw)) ∧
                      ((p1.look_ahead = Token.End →
                          p1.raw.dropWhile Char.isWhitespace = []) →
                        (p2.look_ahead = Token.End →
                          p2.raw.dropWhile Char.isWhitespace = [])) := by
                    intro w hw
                    have hp2 := ih Lv.add _ v p2 hw
                    constructor
                    · intro hpct1
                      rcases hpct1 with hpl | hpr
                      · exfalso
                        rw [hlc] at hpl
                        injection hpl with hceq
                        rcases hcond with h2 | h2 <;> rw [hceq] at h2 <;>
                          exact absurd h2 (by decide)
                      · have h2s := hshpct p1 t1 p2s hs1 hpr
                        rcases h2s with h2l | h2r
                        · exfalso
                          exact run_current_pct n Lv.mul p3 (by rw [hp3cur, h2l]) op2 p4 hr
                        · have h3s := hshpct p2s operator p3 hs2 h2r
                          have hp4pct := hp4.1 h3s
                          exact hp2.1 (by simpa using hp4pct)
                    · intro hend1
                      have hp4end := hp4.2 hend3
                      exact hp2.2 (by simpa using hp4end)
                  split at h
                  · exact hbody _ h
                  · split at h
                    · exact hbody _ h
                    · exact absurd h (by simp)
                · rename_i hne
                  exact absurd h (hne v p2)
        · unfold add_exit at h
          split at h
          · injection h with h1 h2
            subst h2
            exact ⟨id, id⟩
          · exact absurd h (by simp)
      · unfold add_exit at h
        split at h
        · injection h with h1 h2
          subst h2
          exact ⟨id, id⟩
        · exact absurd h (by simp)
    intro lv p v p2 h
    cases lv with
    | prim =>
      simp only [run] at h
      unfold eval_primary_expr at h
      split at h
      · rename_i c hc
        split at h
        · split at h
          · exact absurd h (by simp)
          · rename_i t p1 hs1
            split at h
            · rename_i result p2i hr
              split at h
              · rename_i hlp
                split at h
                · exact absurd h (by simp)
                · rename_i t2 p3 hs2
                  injection h with h1 h2
                  subst h2
                  have hp1cur : p1.current = p.look_ahead := (shift_spec p t p1 hs1).2.1
                  have hp2i := ih Lv.add p1 result p2i hr
                  constructor
                  · intro hpct
                    rcases hpct with hpl | hpr
                    · exfalso
                      exact run_current_pct n Lv.add p1 (by rw [hp1cur, hpl]) result p2i hr
                    · have hpct1 := hshpct p t p1 hs1 hpr
                      have hpct2 := hp2i.1 hpct1
                      rcases hpct2 with h2l | h2r
                      · exfalso
                        rw [hlp] at h2l
                        injection h2l with h3
                        exact absurd h3 (by decide)
                      · have hpct3 := hshpct p2i t2 p3 hs2 h2r
                        simpa using hpct3
                  · intro hend
                    have hend3 := hshend p2i t2 p3 hs2
                    simpa using hend3
              · exact absurd h (by simp)
            · rename_i hne
              exact absurd h (hne v p2)
        · exact absurd h (by simp)
      · rename_i number hc
        injection h with h1 h2
        subst h2
        exact ⟨id, id⟩
      · exact absurd h (by simp)
    | un =>
      simp only [run] at h
      unfold eval_unary_expr at h
      split at h
      · rename_i c hc
        split at h
        · split at h
          · exact absurd h (by simp)
          · rename_i operator p1 hs1
            split at h
            · rename_i oprand p2i hr
              have hp1cur : p1.current = p.look_ahead := (shift_spec p operator p1 hs1).2.1
              have hp2i := ih Lv.prim p1 oprand p2i hr
              have hbody : ∀ (w : FVal) (q : ParserState),
                  Res.ok w { p2i with current := Token.Number w } = Res.ok v p2 →
                  ((p.look_ahead = Token.Operator '%' ∨ '%' ∈ p.raw) →
                    (p2.look_ahead = Token.Operator '%' ∨ '%' ∈ p2.raw)) ∧
                  ((p.look_ahead = Token.End → p.raw.dropWhile Char.isWhitespace = []) →
                    (p2.look_ahead = Token.End →
                      p2.raw.dropWhile Char.isWhitespace = [])) := by
                intro w q hw
                injection hw with h1 h2
                subst h2
                constructor
                · intro hpct
                  rcases hpct with hpl | hpr
                  · exfalso
                    exact run_current_pct n Lv.prim p1 (by rw [hp1cur, hpl]) oprand p2i hr
                  · have hpct1 := hshpct p operator p1 hs1 hpr
                    have hpct2 := hp2i.1 hpct1
                    simpa using hpct2
                · intro hend
                  have hend1 := hshend p operator p1 hs1
                  have hend2 := hp2i.2 hend1
                  simpa using hend2
              split at h
              · exact hbody _ p2 h
              · split at h
                · exact hbody _ p2 h
                · exact absurd h (by simp)
            · rename_i hne
              exact absurd h (hne v p2)
        · exact ih Lv.prim p v p2 h
      · exact ih Lv.prim p v p2 h
    | mul =>
      simp only [run] at h
      unfold eval_mul_expr at h
      split at h
      · rename_i w p1 hr
        have h1 := ih Lv.un p w p1 hr
        have h2 := hml p1 v p2 h
        exact ⟨fun hp => h2.1 (h1.1 hp), fun hp => h2.2 (h1.2 hp)⟩
      · rename_i hne
        exact absurd h (hne v p2)
    | add =>
      simp only [run] at h
      unfold eval_add_expr at h
      split at h
      · rename_i w p1 hr
        have h1 := ih Lv.mul p w p1 hr
        have h2 := hal p1 v p2 h
        exact ⟨fun hp => h2.1 (h1.1 hp), fun hp => h2.2 (h1.2 hp)⟩
      · rename_i hne
        exact absurd h (hne v p2)

/-- C5: any input containing `%` fails — `Parser::eval` can never return
`Ok` on it (with any fuel), the `%` token being lexed but never consumed by
a grammar rule; in particular `"2%3"` gives `Err("invalid expression")`. -/
theorem c5_percent_rejected :
    (∀ fuel raw v p, '%' ∈ raw → Parser.eval fuel raw ≠ Res.ok v p) ∧
    evalLine 32 ('2' :: '%' :: '3' :: []) =
      Res.err "invalid expression"
        ⟨['3', '\n'], Token.Number (FVal.finite 2), Token.Operator '%'⟩ := by
  constructor
  · intro fuel raw v p hmem h
    unfold Parser.eval at h
    split at h
    · exact Res.noConfusion h
    · rename_i t1 p1 hs1
      split at h
      · exact Res.noConfusion h
      · rename_i t2 p2 hs2
        split at h
        · rename_i w q hr
          split at h
          · rename_i hEnd
            have hpct1 : p1.look_ahead = Token.Operator '%' ∨ '%' ∈ p1.raw :=
              lex_pct ((shift_spec _ t1 p1 hs1).2.2) hmem
            have hp2cur : p2.current = p1.look_ahead := (shift_spec p1 t2 p2 hs2).2.1
            rcases hpct1 with hl | hr2
            · exact run_current_pct fuel Lv.add p2 (by rw [hp2cur, hl]) w q hr
            · have hpct2 : p2.look_ahead = Token.Operator '%' ∨ '%' ∈ p2.raw :=
                lex_pct ((shift_spec p1 t2 p2 hs2).2.2) hr2
              have hend2 : p2.look_ahead = Token.End →
                  p2.raw.dropWhile Char.isWhitespace = [] := by
                intro hE
                have hll := (shift_spec p1 t2 p2 hs2).2.2
                rw [hE] at hll
                obtain ⟨he, hw⟩ := lex_end_ws hll
                rw [he]
                exact hw
              have hq := run_pct fuel Lv.add p2 w q hr
              have hqpct := hq.1 hpct2
              have hqend := hq.2 hend2 hEnd
              rcases hqpct with hql | hqr
              · rw [hEnd] at hql
                exact Token.noConfusion hql
              · exact (ws_only_no_pct hqend) hqr
          · exact Res.noConfusion h
        · rename_i m q hr
          split at h <;> exact Res.noConfusion h
        · rename_i hne1 hne2
          exact absurd h (hne1 v p)
  · with_unfolding_all decide

/-- C5 witness: the universal part applied to the concrete input
`"2%3\n"`, discharging the membership hypothesis. -/
theorem c5_witness :
    ('%' ∈ ('2' :: '%' :: '3' :: '\n' :: [])) ∧
    Parser.eval 32 ('2' :: '%' :: '3' :: '\n' :: []) ≠
      Res.ok (FVal.finite 2) ⟨['\n'], Token.Number (FVal.finite 2), Token.End⟩ :=
  ⟨by decide, c5_percent_rejected.1 32 ('2' :: '%' :: '3' :: '\n' :: [])
    (FVal.finite 2) ⟨['\n'], Token.Number (FVal.finite 2), Token.End⟩ (by decide)⟩

/-- C4 witness: the general left-associativity statement applied to the
digits of `"8-3-2"`. -/
theorem c4_witness :
    Parser.eval 64 (['8'] ++ '-' :: ['3'] ++ '-' :: ['2'] ++ ['\n']) =
      Res.ok (FVal.finite ((natOfDigits ['8'] : ℚ) - natOfDigits ['3'] - natOfDigits ['2']))
        ⟨['\n'],
          Token.Number
            (FVal.finite ((natOfDigits ['8'] : ℚ) - natOfDigits ['3'] - natOfDigits ['2'])),
          Token.End⟩ :=
  c4_left_associative.1 ['8'] ['3'] ['2'] (by decide) (by decide) (by decide)
    (by decide) (by decide) (by decide)

end SimpleCalc
